import Mathlib

/-!
# Verification of the compressed inverted-index core (`comprimir.py` / `buscar.py`)

Shallow embedding of the repository's compression codec (VarByte, d-gaps,
blocked front coding), index compressor, compressed reader, and boolean
query engine, together with proofs of the specification's claims.

Conventions of the embedding:
* Python `bytes` are modelled as `List Nat`; every element produced by the
  encoders is `< 256`.  Bitwise operations on bytes are rendered
  arithmetically: for a byte `b`, `b & 0x7F = b % 128`, and the test
  `b & 0x80 != 0` is `b / 128 % 2 = 1` (equivalent for every natural `b`
  to testing bit 7, and for bytes `b < 256` to `128 ≤ b`).
* Python `str` values that are scanned / sliced by code points are
  modelled as `List Char` (`Str` below); opaque string keys (terms used
  only for dictionary lookup) are modelled as Lean `String`.
* A raising Python function is modelled with `Option`/`Except`; a byte
  cursor `pos` into a blob is modelled either positionally (for
  `_vb_decode_number_from`, whose contract mentions positions) or by
  consuming the front of the remaining byte list (the two styles are
  related by `vb_decode_number_from_eq_decodeOneList`).
-/

namespace IndiceInvertido

/-- Python strings viewed as sequences of Unicode code points. -/
abbrev Str := List Char

/-! ## Variable-Byte encoding (`comprimir.py`, `vb_encode_number`) -/

/-- The base-128 digit list of `n`, least significant first, built by the
do-while loop `chunks.append(n % 128); n //= 128; if n == 0: break`
of `vb_encode_number`; always nonempty. -/
def vb_chunks (n : Nat) : List Nat :=
  n % 128 :: (if h : n / 128 = 0 then [] else vb_chunks (n / 128))
decreasing_by
  exact Nat.div_lt_self (Nat.pos_of_ne_zero (fun hz => h (by simp [hz]))) (by omega)

/-- Model of `vb_encode_number`: emit the chunks from most significant to least
significant; the last emitted byte (the least significant chunk) is marked
with the high bit (`| 0x80`, i.e. `+ 128` since every chunk is `< 128`). -/
def vb_encode_number (n : Nat) : List Nat :=
  match vb_chunks n with
  | [] => []          -- unreachable: `vb_chunks` is never empty
  | c :: cs => cs.reverse ++ [c + 128]

/-- Model of `vb_encode_list`: concatenation of the encodings. -/
def vb_encode_list (nums : List Nat) : List Nat :=
  (nums.map vb_encode_number).flatten

/-- Model of `d_gaps`: `[d1, d2 - d1, d3 - d2, ...]` (`comprimir.py`). -/
def d_gaps : List Nat → List Nat
  | [] => []
  | x :: xs => x :: d_gapsAux x xs
where
  d_gapsAux : Nat → List Nat → List Nat
  | _, [] => []
  | prev, y :: ys => (y - prev) :: d_gapsAux y ys

/-! ## Variable-Byte decoding (`buscar.py`) -/

/-- Loop of `_vb_decode_stream`, with the accumulator threaded explicitly.
NOTE: a trailing unterminated number (final bytes with the high bit
clear) is silently discarded, exactly as in the source, whose residual
check is the no-op `if n != 0: pass`. -/
def vbStreamAux : List Nat → Nat → List Nat
  | [], _ => []
  | b :: rest, n =>
    if b / 128 % 2 = 1 then        -- b & 0x80: final byte of a number
      (n * 128 + b % 128) :: vbStreamAux rest 0
    else
      vbStreamAux rest (n * 128 + b % 128)

/-- Model of `_vb_decode_stream(data)`. -/
def vb_decode_stream (data : List Nat) : List Nat :=
  vbStreamAux data 0

/-- Loop of `_from_dgaps`: prefix sums of the gaps. -/
def fromDgapsAux : Nat → List Nat → List Nat
  | _, [] => []
  | acc, g :: gs => (acc + g) :: fromDgapsAux (acc + g) gs

/-- Model of `_from_dgaps(gaps)` (`buscar.py`). -/
def from_dgaps (gaps : List Nat) : List Nat :=
  fromDgapsAux 0 gaps

/-- Decoding one VarByte number by consuming the front of the byte list
(accumulator `acc`); returns the value and the remaining bytes, or `none`
when the data ends before a terminating byte ("VB mal formado"). -/
def decodeOneList : List Nat → Nat → Option (Nat × List Nat)
  | [], _ => none
  | b :: rest, acc =>
    if b / 128 % 2 = 1 then some (acc * 128 + b % 128, rest)
    else decodeOneList rest (acc * 128 + b % 128)

/-- Loop of `CompressedReader._vb_decode_number_from(data, pos)`, positional:
scan from `pos`, returning `(value, new position)`, or `none` when the
data is exhausted mid-number (`raise ValueError("VB mal formado")`). -/
def vbDecodeFromAux (data : List Nat) (acc pos : Nat) : Option (Nat × Nat) :=
  if h : pos < data.length then
    let b := data[pos]
    if b / 128 % 2 = 1 then some (acc * 128 + b % 128, pos + 1)
    else vbDecodeFromAux data (acc * 128 + b % 128) (pos + 1)
  else none
termination_by data.length - pos

/-- Model of `_vb_decode_number_from(data, pos)`. -/
def vb_decode_number_from (data : List Nat) (pos : Nat) : Option (Nat × Nat) :=
  vbDecodeFromAux data 0 pos

/-! ### Basic facts about the VarByte codec -/

theorem vb_chunks_ne_nil (n : Nat) : vb_chunks n ≠ [] := by
  rw [vb_chunks]; simp

/-- The bytes before the final byte of an encoding, most significant
first: `vbHigh (n / 128)` are exactly the high-bit-clear bytes that
`vb_encode_number n` emits before its final byte. -/
def vbHigh (m : Nat) : List Nat :=
  if h : m = 0 then [] else vbHigh (m / 128) ++ [m % 128]
decreasing_by
  exact Nat.div_lt_self (Nat.pos_of_ne_zero h) (by omega)

theorem vb_chunks_eq (n : Nat) :
    vb_chunks n = n % 128 :: (if n / 128 = 0 then [] else vb_chunks (n / 128)) := by
  rw [vb_chunks]; simp [dite_eq_ite]

theorem vbHigh_reverse_chunks (n : Nat) :
    (if n = 0 then [] else (vb_chunks n).reverse) = vbHigh n := by
  induction n using Nat.strong_induction_on with
  | _ n ih =>
    by_cases h : n = 0
    · simp [h, vbHigh]
    · rw [if_neg h, vb_chunks_eq, vbHigh, dif_neg h]
      by_cases h2 : n / 128 = 0
      · rw [h2]; simp [vbHigh]
      · have hlt : n / 128 < n :=
          Nat.div_lt_self (Nat.pos_of_ne_zero h) (by omega)
        have := ih (n / 128) hlt
        rw [if_neg h2] at this
        simp [h2, this]

theorem vb_encode_number_eq (n : Nat) :
    vb_encode_number n = vbHigh (n / 128) ++ [n % 128 + 128] := by
  rw [vb_encode_number, vb_chunks_eq]
  by_cases h : n / 128 = 0
  · simp [h, vbHigh]
  · rw [if_neg h]
    have := vbHigh_reverse_chunks (n / 128)
    rw [if_neg h] at this
    simp [this]

theorem vbHigh_all_lt_128 (m : Nat) : ∀ b ∈ vbHigh m, b < 128 := by
  induction m using Nat.strong_induction_on with
  | _ m ih =>
    intro b hb
    rw [vbHigh] at hb
    by_cases h : m = 0
    · simp [h] at hb
    · rw [dif_neg h] at hb
      rcases List.mem_append.mp hb with h1 | h2
      · exact ih (m / 128) (Nat.div_lt_self (Nat.pos_of_ne_zero h) (by omega)) b h1
      · simp at h2; omega

theorem vb_encode_number_ne_nil (n : Nat) : vb_encode_number n ≠ [] := by
  rw [vb_encode_number_eq]; simp

/-- Scanning the high bytes of `m` accumulates `acc * 128 ^ |vbHigh m| + m`. -/
theorem decodeOneList_vbHigh (m : Nat) :
    ∀ (tail : List Nat) (acc : Nat),
      decodeOneList (vbHigh m ++ tail) acc
        = decodeOneList tail (acc * 128 ^ (vbHigh m).length + m) := by
  induction m using Nat.strong_induction_on with
  | _ m ih =>
    intro tail acc
    by_cases h : m = 0
    · simp [h, vbHigh]
    · rw [vbHigh, dif_neg h]
      have hlt : m / 128 < m := Nat.div_lt_self (Nat.pos_of_ne_zero h) (by omega)
      rw [List.append_assoc, ih (m / 128) hlt]
      have hm : m % 128 < 128 := Nat.mod_lt _ (by omega)
      rw [List.cons_append, decodeOneList]
      rw [if_neg (by omega)]
      have : (acc * 128 ^ (vbHigh (m / 128)).length + m / 128) * 128 + m % 128 % 128
          = acc * 128 ^ ((vbHigh (m / 128)).length + 1) + m := by
        rw [Nat.mod_mod_of_dvd _ (by norm_num)]
        ring_nf
        omega
      rw [this]
      congr 1
      simp [List.length_append]

theorem decodeOneList_encode (n : Nat) (rest : List Nat) :
    decodeOneList (vb_encode_number n ++ rest) 0 = some (n, rest) := by
  rw [vb_encode_number_eq, List.append_assoc, decodeOneList_vbHigh]
  rw [List.cons_append, decodeOneList]
  have h1 : (n % 128 + 128) / 128 % 2 = 1 := by omega
  rw [if_pos h1]
  have h2 : (n % 128 + 128) % 128 = n % 128 := by omega
  rw [h2]
  have : (0 * 128 ^ (vbHigh (n / 128)).length + n / 128) * 128 + n % 128 = n := by
    simp; omega
  rw [this]; simp

/-- Same statement for the stream decoder: the bytes of one number
followed by anything decode to that number followed by the rest. -/
theorem vbStreamAux_vbHigh (m : Nat) :
    ∀ (tail : List Nat) (acc : Nat),
      vbStreamAux (vbHigh m ++ tail) acc
        = vbStreamAux tail (acc * 128 ^ (vbHigh m).length + m) := by
  induction m using Nat.strong_induction_on with
  | _ m ih =>
    intro tail acc
    by_cases h : m = 0
    · simp [h, vbHigh]
    · rw [vbHigh, dif_neg h]
      have hlt : m / 128 < m := Nat.div_lt_self (Nat.pos_of_ne_zero h) (by omega)
      rw [List.append_assoc, ih (m / 128) hlt]
      have hm : m % 128 < 128 := Nat.mod_lt _ (by omega)
      rw [List.cons_append, vbStreamAux]
      rw [if_neg (by omega)]
      have : (acc * 128 ^ (vbHigh (m / 128)).length + m / 128) * 128 + m % 128 % 128
          = acc * 128 ^ ((vbHigh (m / 128)).length + 1) + m := by
        rw [Nat.mod_mod_of_dvd _ (by norm_num)]
        ring_nf
        omega
      rw [this]
      congr 1
      simp [List.length_append]

theorem vbStreamAux_encode (n : Nat) (rest : List Nat) :
    vbStreamAux (vb_encode_number n ++ rest) 0 = n :: vbStreamAux rest 0 := by
  rw [vb_encode_number_eq, List.append_assoc, vbStreamAux_vbHigh]
  rw [List.cons_append, vbStreamAux]
  have h1 : (n % 128 + 128) / 128 % 2 = 1 := by omega
  rw [if_pos h1]
  have h2 : (n % 128 + 128) % 128 = n % 128 := by omega
  rw [h2]
  have : (0 * 128 ^ (vbHigh (n / 128)).length + n / 128) * 128 + n % 128 = n := by
    simp; omega
  rw [this]; simp

/-- Stream round-trip: decoding the concatenation of the encodings of a
sequence recovers the sequence. -/
theorem vb_decode_stream_encode_list (nums : List Nat) :
    vb_decode_stream (vb_encode_list nums) = nums := by
  induction nums with
  | nil => rfl
  | cons n ns ih =>
    rw [vb_encode_list, List.map_cons, List.flatten_cons]
    rw [vb_decode_stream, vbStreamAux_encode]
    rw [vb_decode_stream, vb_encode_list] at ih
    rw [ih]

/-- The positional decoder is the front-consuming decoder on the bytes
after `pos`, with the new position recovered from the remaining length. -/
theorem vbDecodeFromAux_eq_decodeOneList (data : List Nat) :
    ∀ (pos acc : Nat),
      vbDecodeFromAux data acc pos
        = (decodeOneList (data.drop pos) acc).map
            (fun p => (p.1, data.length - p.2.length)) := by
  suffices H : ∀ k pos acc, data.length - pos = k →
      vbDecodeFromAux data acc pos
        = (decodeOneList (data.drop pos) acc).map
            (fun p => (p.1, data.length - p.2.length)) by
    intro pos acc; exact H _ pos acc rfl
  intro k
  induction k using Nat.strong_induction_on with
  | _ k ih =>
    intro pos acc hk
    rw [vbDecodeFromAux]
    by_cases h : pos < data.length
    · rw [dif_pos h]
      rw [List.drop_eq_getElem_cons h]
      rw [decodeOneList]
      by_cases hb : data[pos] / 128 % 2 = 1
      · rw [if_pos hb, if_pos hb]
        simp [List.length_drop]
        omega
      · rw [if_neg hb, if_neg hb]
        exact ih (data.length - (pos + 1)) (by omega) (pos + 1) _ rfl
    · rw [dif_neg h]
      rw [List.drop_eq_nil_of_le (by omega)]
      rfl

theorem vb_decode_number_from_eq_decodeOneList (data : List Nat) (pos : Nat) :
    vb_decode_number_from data pos
      = (decodeOneList (data.drop pos) 0).map
          (fun p => (p.1, data.length - p.2.length)) :=
  vbDecodeFromAux_eq_decodeOneList data pos 0

/-- A successful front-consuming decode strictly shortens the data. -/
theorem decodeOneList_length {data : List Nat} :
    ∀ {acc v : Nat} {rem : List Nat},
      decodeOneList data acc = some (v, rem) → rem.length < data.length := by
  induction data with
  | nil => intro acc v rem h; simp [decodeOneList] at h
  | cons b rest ih =>
    intro acc v rem h
    rw [decodeOneList] at h
    by_cases hb : b / 128 % 2 = 1
    · rw [if_pos hb] at h
      simp at h
      simp [← h.2]
    · rw [if_neg hb] at h
      have := ih h
      simp; omega

/-- Single-number round-trip at an arbitrary position in front of a tail. -/
theorem vb_decode_number_from_encode (n : Nat) (rest : List Nat) :
    vb_decode_number_from (vb_encode_number n ++ rest) 0
      = some (n, (vb_encode_number n).length) := by
  rw [vb_decode_number_from_eq_decodeOneList]
  rw [List.drop_zero, decodeOneList_encode]
  simp [List.length_append]

/-! ### d-gaps round-trip -/

theorem fromDgapsAux_d_gapsAux (xs : List Nat) :
    ∀ x : Nat, List.Chain' (· ≤ ·) (x :: xs) →
      fromDgapsAux x (d_gaps.d_gapsAux x xs) = xs := by
  induction xs with
  | nil => intro x _; rfl
  | cons y ys ih =>
    intro x hchain
    have hxy : x ≤ y := (List.chain'_cons.mp hchain).1
    rw [d_gaps.d_gapsAux, fromDgapsAux]
    have h1 : x + (y - x) = y := by omega
    rw [h1]
    rw [ih y (List.chain'_cons.mp hchain).2]

/-- Prefix-summing the d-gaps of a weakly increasing list recovers it. -/
theorem from_dgaps_d_gaps {l : List Nat} (h : List.Chain' (· ≤ ·) l) :
    from_dgaps (d_gaps l) = l := by
  cases l with
  | nil => rfl
  | cons x xs =>
    rw [d_gaps, from_dgaps, fromDgapsAux]
    rw [Nat.zero_add]
    rw [fromDgapsAux_d_gapsAux xs x h]

/-! ### Silent residual drop in the stream decoder -/

/-- Bytes with the high bit clear never complete a number: the stream
decoder consumes them into the accumulator and, at the end of the data,
drops the accumulator silently. -/
theorem vbStreamAux_residual (residual : List Nat)
    (h : ∀ b ∈ residual, b / 128 % 2 ≠ 1) :
    ∀ acc : Nat, vbStreamAux residual acc = [] := by
  induction residual with
  | nil => intro acc; rfl
  | cons b rest ih =>
    intro acc
    rw [vbStreamAux, if_neg (h b (by simp))]
    exact ih (fun x hx => h x (by simp [hx])) _

/-- Decoding a stream of well-formed numbers followed by an unterminated
residual silently discards the residual. -/
theorem vb_decode_stream_residual (nums : List Nat) (residual : List Nat)
    (h : ∀ b ∈ residual, b / 128 % 2 ≠ 1) :
    vb_decode_stream (vb_encode_list nums ++ residual) = nums := by
  induction nums with
  | nil =>
    rw [vb_encode_list]
    simp only [List.map_nil, List.flatten_nil, List.nil_append]
    exact vbStreamAux_residual residual h 0
  | cons n ns ih =>
    rw [vb_encode_list, List.map_cons, List.flatten_cons, List.append_assoc]
    rw [vb_decode_stream, vbStreamAux_encode]
    rw [vb_decode_stream, vb_encode_list] at ih
    rw [ih]

/-! ## UTF-8 (Python's `str.encode("utf-8")` / `bytes.decode("utf-8")`)

The source stores term bytes with `s.encode("utf-8")` and reads them back
with `bytes.decode("utf-8")`; both are modelled here over `Str` with the
standard UTF-8 rules (1-4 bytes per scalar value, strict decoding that
rejects stray/missing continuation bytes, overlong forms, surrogates and
out-of-range values, as CPython's strict codec does). -/

/-- UTF-8 bytes of one Unicode scalar value. -/
def utf8EncodeChar (c : Char) : List Nat :=
  let v := c.toNat
  if v < 128 then [v]
  else if v < 2048 then [192 + v / 64, 128 + v % 64]
  else if v < 65536 then [224 + v / 4096, 128 + v / 64 % 64, 128 + v % 64]
  else [240 + v / 262144, 128 + v / 4096 % 64, 128 + v / 64 % 64, 128 + v % 64]

/-- Model of `s.encode("utf-8")`. -/
def utf8Encode (s : Str) : List Nat :=
  (s.map utf8EncodeChar).flatten

/-- Strict UTF-8 decoding of one scalar value from the front of the data;
`none` models `UnicodeDecodeError`. -/
def utf8DecodeChar : List Nat → Option (Char × List Nat)
  | [] => none
  | b :: rest =>
    if b < 128 then some (Char.ofNat b, rest)
    else if b < 192 then none
    else if b < 224 then
      match rest with
      | b1 :: r =>
        if 128 ≤ b1 ∧ b1 < 192 then
          let v := (b - 192) * 64 + (b1 - 128)
          if 128 ≤ v then some (Char.ofNat v, r) else none
        else none
      | [] => none
    else if b < 240 then
      match rest with
      | b1 :: b2 :: r =>
        if (128 ≤ b1 ∧ b1 < 192) ∧ (128 ≤ b2 ∧ b2 < 192) then
          let v := (b - 224) * 4096 + (b1 - 128) * 64 + (b2 - 128)
          if 2048 ≤ v ∧ ¬(55296 ≤ v ∧ v < 57344) then some (Char.ofNat v, r)
          else none
        else none
      | _ => none
    else if b < 248 then
      match rest with
      | b1 :: b2 :: b3 :: r =>
        if (128 ≤ b1 ∧ b1 < 192) ∧ (128 ≤ b2 ∧ b2 < 192) ∧ (128 ≤ b3 ∧ b3 < 192) then
          let v := (b - 240) * 262144 + (b1 - 128) * 4096
                     + (b2 - 128) * 64 + (b3 - 128)
          if 65536 ≤ v ∧ v < 1114112 then some (Char.ofNat v, r) else none
        else none
      | _ => none
    else none

theorem utf8EncodeChar_ne_nil (c : Char) : utf8EncodeChar c ≠ [] := by
  rw [utf8EncodeChar]
  split <;> try simp
  split <;> try simp
  split <;> simp

theorem char_ofNat_toNat (c : Char) : Char.ofNat c.toNat = c := by
  have hv : c.toNat.isValidChar := c.valid
  unfold Char.ofNat
  rw [dif_pos hv]
  rfl

/-- The `Nat` bounds carried by a `Char` (no surrogates, `< 0x110000`). -/
theorem char_toNat_valid (c : Char) :
    c.toNat < 55296 ∨ (57343 < c.toNat ∧ c.toNat < 1114112) := c.valid

theorem utf8DecodeChar_encode (c : Char) (rest : List Nat) :
    utf8DecodeChar (utf8EncodeChar c ++ rest) = some (c, rest) := by
  have hv := char_toNat_valid c
  rcases Nat.lt_or_ge c.toNat 128 with h1 | h1
  · have he : utf8EncodeChar c = [c.toNat] := by
      rw [utf8EncodeChar]; rw [if_pos h1]
    rw [he, List.cons_append, List.nil_append]
    simp only [utf8DecodeChar.eq_def]
    rw [if_pos h1, char_ofNat_toNat]
  · rcases Nat.lt_or_ge c.toNat 2048 with h2 | h2
    · have he : utf8EncodeChar c
          = [192 + c.toNat / 64, 128 + c.toNat % 64] := by
        rw [utf8EncodeChar, if_neg (by omega), if_pos h2]
      rw [he]
      simp only [List.cons_append, List.nil_append, utf8DecodeChar]
      rw [if_neg (by omega), if_neg (by omega), if_pos (by omega),
        if_pos (by constructor <;> omega)]
      have hval : (192 + c.toNat / 64 - 192) * 64 + (128 + c.toNat % 64 - 128)
          = c.toNat := by omega
      simp only [hval]
      rw [if_pos (by omega), char_ofNat_toNat]
    · rcases Nat.lt_or_ge c.toNat 65536 with h3 | h3
      · have he : utf8EncodeChar c
            = [224 + c.toNat / 4096, 128 + c.toNat / 64 % 64,
               128 + c.toNat % 64] := by
          rw [utf8EncodeChar, if_neg (by omega), if_neg (by omega), if_pos h3]
        rw [he]
        simp only [List.cons_append, List.nil_append, utf8DecodeChar]
        rw [if_neg (by omega), if_neg (by omega), if_neg (by omega),
          if_pos (by omega),
          if_pos (by refine ⟨⟨?_, ?_⟩, ?_, ?_⟩ <;> omega)]
        have hval : (224 + c.toNat / 4096 - 224) * 4096
              + (128 + c.toNat / 64 % 64 - 128) * 64
              + (128 + c.toNat % 64 - 128) = c.toNat := by omega
        simp only [hval]
        rw [if_pos (by constructor <;> omega), char_ofNat_toNat]
      · have he : utf8EncodeChar c
            = [240 + c.toNat / 262144, 128 + c.toNat / 4096 % 64,
               128 + c.toNat / 64 % 64, 128 + c.toNat % 64] := by
          rw [utf8EncodeChar, if_neg (by omega), if_neg (by omega),
            if_neg (by omega)]
        have hlt : c.toNat < 1114112 := by omega
        rw [he]
        simp only [List.cons_append, List.nil_append, utf8DecodeChar]
        rw [if_neg (by omega), if_neg (by omega), if_neg (by omega),
          if_neg (by omega), if_pos (by omega),
          if_pos (by refine ⟨⟨?_, ?_⟩, ⟨?_, ?_⟩, ?_, ?_⟩ <;> omega)]
        have hval : (240 + c.toNat / 262144 - 240) * 262144
              + (128 + c.toNat / 4096 % 64 - 128) * 4096
              + (128 + c.toNat / 64 % 64 - 128) * 64
              + (128 + c.toNat % 64 - 128) = c.toNat := by omega
        simp only [hval]
        rw [if_pos (by constructor <;> omega), char_ofNat_toNat]

/-- A successful one-character decode strictly shortens the data. -/
theorem utf8DecodeChar_length {data : List Nat} {c : Char} {rem : List Nat}
    (h : utf8DecodeChar data = some (c, rem)) : rem.length < data.length := by
  cases data with
  | nil => simp [utf8DecodeChar] at h
  | cons b tail =>
    rw [utf8DecodeChar.eq_def] at h
    repeat' split at h
    all_goals simp_all
    all_goals omega

/-- Model of `bytes.decode("utf-8")` on a whole byte string. -/
def utf8Decode : List Nat → Option Str
  | [] => some []
  | b :: rest =>
    match h : utf8DecodeChar (b :: rest) with
    | none => none
    | some (c, rem) =>
      match utf8Decode rem with
      | none => none
      | some s => some (c :: s)
termination_by data => data.length
decreasing_by exact utf8DecodeChar_length h

/-- UTF-8 round-trip over Unicode code points. -/
theorem utf8Decode_encode (s : Str) : utf8Decode (utf8Encode s) = some s := by
  induction s with
  | nil => rw [show utf8Encode [] = [] from rfl, utf8Decode]
  | cons c tail ih =>
    have henc : utf8Encode (c :: tail) = utf8EncodeChar c ++ utf8Encode tail := by
      rw [utf8Encode, List.map_cons, List.flatten_cons]; rfl
    rw [henc]
    have hd : utf8DecodeChar (utf8EncodeChar c ++ utf8Encode tail)
        = some (c, utf8Encode tail) := utf8DecodeChar_encode c _
    cases he : utf8EncodeChar c with
    | nil => exact absurd he (utf8EncodeChar_ne_nil c)
    | cons b bs =>
      rw [utf8Decode.eq_def]
      split
      · next heq => exact absurd heq (by simp)
      · next c2 rem heq =>
        rw [he, heq] at hd
        split
        · next heq2 => rw [hd] at heq2; simp at heq2
        · next c3 rem2 heq2 =>
          rw [hd] at heq2
          injection heq2 with heq3
          injection heq3 with hc hrem
          subst hc; subst hrem
          rw [ih]

/-! ## Front coding (`comprimir.py`, `front_code_blocks`) -/

/-- Model of `lcp(a, b)`: longest common prefix length, over code points. -/
def lcp : Str → Str → Nat
  | a :: as, b :: bs => if a = b then lcp as bs + 1 else 0
  | _, _ => 0

/-- Byte encoding of one follower term inside a block:
`VB(lcp(base, t)), VB(len(sufijo)), sufijo` with the suffix in UTF-8. -/
def encodeFollower (base t : Str) : List Nat :=
  let p := lcp base t
  let suf_b := utf8Encode (t.drop p)
  vb_encode_number p ++ vb_encode_number suf_b.length ++ suf_b

/-- Model of `front_code_blocks(terms_sorted, block_size)`: blocked front coding of
the dictionary.  Per block: `VB(len(base)), base, VB(k - 1)` followed by
the encoded followers.  Blocks are the chunks `terms_sorted[i : i + bs]`;
for `bs = 0` the Python loop would not terminate, so (as everywhere the
function is used, and as every theorem below assumes) `bs ≥ 1`. -/
def front_code_blocks (terms_sorted : List Str) (block_size : Nat) : List Nat :=
  match terms_sorted with
  | [] => []
  | base :: rest =>
    let followers := rest.take (block_size - 1)
    let base_b := utf8Encode base
    vb_encode_number base_b.length ++ base_b
      ++ vb_encode_number followers.length
      ++ (followers.map (encodeFollower base)).flatten
      ++ front_code_blocks (rest.drop (block_size - 1)) block_size
termination_by terms_sorted.length
decreasing_by simp [List.length_drop]; omega

/-! ## Lexicon decoding (`buscar.py`, `CompressedReader._decode_lexicon_fc`)

The Python cursor `pos` into the blob is modelled by consuming the front
of the remaining byte list; `_vb_decode_number_from(blob, pos)` becomes
`decodeOneList` on the remaining bytes, which is exactly what the
positional decoder computes by `vb_decode_number_from_eq_decodeOneList`. -/

/-- Decoding of the follower loop `for _ in range(followers)`: per
follower read `VB(lcp), VB(len_suf), sufijo` and append
`base[:lcp] + suf`. -/
def decodeFollowers (base : Str) : Nat → List Nat → Option (List Str × List Nat)
  | 0, data => some ([], data)
  | k + 1, data =>
    match decodeOneList data 0 with
    | none => none
    | some (lcp_len, d1) =>
      match decodeOneList d1 0 with
      | none => none
      | some (suf_len, d2) =>
        match utf8Decode (d2.take suf_len) with
        | none => none
        | some suf =>
          match decodeFollowers base k (d2.drop suf_len) with
          | none => none
          | some (ts, rest) => some ((base.take lcp_len ++ suf) :: ts, rest)

theorem decodeFollowers_length {base : Str} :
    ∀ {k : Nat} {data : List Nat} {ts : List Str} {rest : List Nat},
      decodeFollowers base k data = some (ts, rest) →
        rest.length ≤ data.length := by
  intro k
  induction k with
  | zero =>
    intro data ts rest h
    rw [decodeFollowers] at h
    injection h with h
    injection h with h1 h2
    simp [← h2]
  | succ k ih =>
    intro data ts rest h
    rw [decodeFollowers] at h
    split at h
    · exact absurd h (by simp)
    · next lcp_len d1 h1 =>
      split at h
      · exact absurd h (by simp)
      · next suf_len d2 h2 =>
        split at h
        · exact absurd h (by simp)
        · next suf h3 =>
          split at h
          · exact absurd h (by simp)
          · next ts2 rest2 h4 =>
            injection h with h5
            injection h5 with h6 h7
            subst h7
            have hrec := ih h4
            have l1 := decodeOneList_length h1
            have l2 := decodeOneList_length h2
            have l3 : (d2.drop suf_len).length ≤ d2.length := by
              simp [List.length_drop]
            omega

/-- The outer `while pos < n` loop of `_decode_lexicon_fc`: per block read
the base term, the follower count, and the followers. -/
def decodeLexAux (data : List Nat) : Option (List Str) :=
  if data = [] then some []
  else
    match h1 : decodeOneList data 0 with
    | none => none
    | some (base_len, d1) =>
      match utf8Decode (d1.take base_len) with
      | none => none
      | some base =>
        match h3 : decodeOneList (d1.drop base_len) 0 with
        | none => none
        | some (followers, d3) =>
          match h4 : decodeFollowers base followers d3 with
          | none => none
          | some (ts, d4) =>
            match decodeLexAux d4 with
            | none => none
            | some more => some (base :: (ts ++ more))
termination_by data.length
decreasing_by
  have l1 := decodeOneList_length h1
  have l3 := decodeOneList_length h3
  have l4 := decodeFollowers_length h4
  have l2 : (d1.drop base_len).length ≤ d1.length := by simp [List.length_drop]
  omega

/-- Model of `CompressedReader._decode_lexicon_fc(blob, _block_size)`.  As in the
source, the `_block_size` argument is ignored: each block carries its own
follower count, so the format is self-delimiting. -/
def _decode_lexicon_fc (blob : List Nat) ( _block_size : Nat) : Option (List Str) :=
  decodeLexAux blob

/-! ### Front-coding round-trip -/

theorem lcp_take_eq (a : Str) : ∀ b : Str, a.take (lcp a b) = b.take (lcp a b) := by
  induction a with
  | nil => intro b; cases b <;> rfl
  | cons x xs ih =>
    intro b
    cases b with
    | nil => rfl
    | cons y ys =>
      rw [lcp]
      by_cases h : x = y
      · rw [if_pos h]
        simp only [List.take_succ_cons]
        rw [ih ys, h]
      · rw [if_neg h]
        rfl

/-- Reconstructing a follower from its common-prefix length and suffix
recovers the follower. -/
theorem follower_reconstruct (base t : Str) :
    base.take (lcp base t) ++ t.drop (lcp base t) = t := by
  rw [lcp_take_eq]
  exact List.take_append_drop _ _

/-- Decoding the encoded followers of a block recovers them. -/
theorem decodeFollowers_encode (base : Str) (followers : List Str)
    (rest : List Nat) :
    decodeFollowers base followers.length
        ((followers.map (encodeFollower base)).flatten ++ rest)
      = some (followers, rest) := by
  induction followers generalizing rest with
  | nil => rfl
  | cons t ts ih =>
    simp only [List.map_cons, List.flatten_cons, List.length_cons,
      encodeFollower, List.append_assoc]
    have h1 := decodeOneList_encode (lcp base t)
      (vb_encode_number (utf8Encode (t.drop (lcp base t))).length
          ++ (utf8Encode (t.drop (lcp base t))
          ++ ((ts.map (encodeFollower base)).flatten ++ rest)))
    have h2 := decodeOneList_encode (utf8Encode (t.drop (lcp base t))).length
      (utf8Encode (t.drop (lcp base t))
          ++ ((ts.map (encodeFollower base)).flatten ++ rest))
    simp only [List.append_assoc] at h1 h2
    simp only [decodeFollowers, h1, h2, List.take_left, List.drop_left,
      utf8Decode_encode, ih]
    simp [follower_reconstruct]

/-- Decoding the front-coded blob of any term list (block size ≥ 1)
recovers the term list. -/
theorem decodeLexAux_front_code (bs : Nat) (hbs : 1 ≤ bs) :
    ∀ (n : Nat) (terms : List Str), terms.length ≤ n →
      decodeLexAux (front_code_blocks terms bs) = some terms := by
  have hnil : decodeLexAux (front_code_blocks [] bs) = some [] := by
    rw [show front_code_blocks [] bs = [] from by rw [front_code_blocks]]
    rw [decodeLexAux]
    rfl
  intro n
  induction n with
  | zero =>
    intro terms hlen
    have : terms = [] := List.eq_nil_of_length_eq_zero (by omega)
    subst this
    exact hnil
  | succ n ih =>
    intro terms hlen
    cases terms with
    | nil => exact hnil
    | cons base rest =>
      rw [front_code_blocks]
      simp only [List.append_assoc]
      set followers := rest.take (bs - 1) with hfoll
      set base_b := utf8Encode base with hbase
      have hne : vb_encode_number base_b.length
          ++ (base_b ++ (vb_encode_number followers.length
          ++ ((followers.map (encodeFollower base)).flatten
          ++ front_code_blocks (rest.drop (bs - 1)) bs))) ≠ [] := by
        intro hcontra
        exact vb_encode_number_ne_nil _ (List.append_eq_nil.mp hcontra).1
      rw [decodeLexAux.eq_def, if_neg hne]
      have h1 := decodeOneList_encode base_b.length
        (base_b ++ (vb_encode_number followers.length
          ++ ((followers.map (encodeFollower base)).flatten
          ++ front_code_blocks (rest.drop (bs - 1)) bs)))
      have h2 : (base_b ++ (vb_encode_number followers.length
            ++ ((followers.map (encodeFollower base)).flatten
            ++ front_code_blocks (rest.drop (bs - 1)) bs))).take base_b.length
          = base_b := List.take_left _ _
      have h3 : (base_b ++ (vb_encode_number followers.length
            ++ ((followers.map (encodeFollower base)).flatten
            ++ front_code_blocks (rest.drop (bs - 1)) bs))).drop base_b.length
          = vb_encode_number followers.length
            ++ ((followers.map (encodeFollower base)).flatten
            ++ front_code_blocks (rest.drop (bs - 1)) bs) := List.drop_left _ _
      have h4 := decodeOneList_encode followers.length
        ((followers.map (encodeFollower base)).flatten
          ++ front_code_blocks (rest.drop (bs - 1)) bs)
      have h5 := decodeFollowers_encode base followers
        (front_code_blocks (rest.drop (bs - 1)) bs)
      have h6 : decodeLexAux (front_code_blocks (rest.drop (bs - 1)) bs)
          = some (rest.drop (bs - 1)) := by
        apply ih
        have : (rest.drop (bs - 1)).length ≤ rest.length := by
          simp [List.length_drop]
        simp at hlen
        omega
      have hb : utf8Decode base_b = some base := utf8Decode_encode base
      split
      · next heq => rw [h1] at heq; simp at heq
      · next base_len d1 heq =>
        rw [h1] at heq
        injection heq with heqp
        injection heqp with hbl hd1
        subst hbl
        subst hd1
        split
        · next heq2 => rw [h2, hb] at heq2; simp at heq2
        · next base2 heq2 =>
          rw [h2, hb] at heq2
          injection heq2 with hbase2
          subst hbase2
          split
          · next heq3 => rw [h3, h4] at heq3; simp at heq3
          · next k d3 heq3 =>
            rw [h3, h4] at heq3
            injection heq3 with heqp3
            injection heqp3 with hk hd3
            subst hk
            subst hd3
            split
            · next heq4 => rw [h5] at heq4; simp at heq4
            · next ts d4 heq4 =>
              rw [h5] at heq4
              injection heq4 with heqp4
              injection heqp4 with hts hd4
              subst hts
              subst hd4
              split
              · next heq5 => rw [h6] at heq5; simp at heq5
              · next more heq5 =>
                rw [h6] at heq5
                injection heq5 with hmore
                subst hmore
                rw [hfoll, List.take_append_drop]

/-! ## Index compression (`comprimir.py`, `comprimir_indice`)

A Python `dict` is modelled as an association list with `Nodup` keys
(looked up with `List.find?`).  This section embeds the integer-ID
normalization regime of `_normalize_docids_to_ints` (external document
IDs already integers, here `Nat`); the string-ID regime is embedded
separately below. -/

/-- Model of Python's `sorted({...})` on naturals: the sorted list of the
distinct elements. -/
def sortedDedup (l : List Nat) : List Nat :=
  l.toFinset.sort (· ≤ ·)

/-- Model of `_normalize_docids_to_ints` in the integer regime: posting
lists become `sorted({int(d) for d in plist})`; `doc_id_map` maps
`str(x) -> x` for each distinct id; `rev` has `rev[i] = str(i)` for each
id `i` and `None` elsewhere.  The `index vacío` branch returns empty
maps. -/
def _normalize_docids_to_ints (index : List (String × List Nat)) :
    List (String × List Nat) × List (String × Nat) × List (Option String) :=
  let all_docids := (index.map Prod.snd).flatten
  if all_docids = [] then
    (index.map (fun p => (p.1, [])), [], [])
  else
    let sorted_ids := sortedDedup all_docids
    let doc_id_map := sorted_ids.map (fun x => (toString x, x))
    let maxId := sorted_ids.foldl max 0
    let rev0 : List (Option String) := List.replicate (maxId + 1) none
    let rev := doc_id_map.foldl (fun r p => r.set p.2 (some p.1)) rev0
    (index.map (fun p => (p.1, sortedDedup p.2)), doc_id_map, rev)

/-- The posting-blob building loop of `comprimir_indice`: for each term in
order, append `vb_encode_list(d_gaps(plist))` to the blob and record
`(term, start, length)`. -/
def buildPostings (getP : String → List Nat) :
    List String → List Nat → List Nat × List (String × Nat × Nat)
  | [], blob => (blob, [])
  | t :: ts, blob =>
    let encoded := vb_encode_list (d_gaps (getP t))
    let r := buildPostings getP ts (blob ++ encoded)
    (r.1, (t, blob.length, encoded.length) :: r.2)

/-- The `CompressedIndex` dataclass of `comprimir.py`. -/
structure CompressedIndex where
  lexicon_bytes : List Nat
  lexicon_block_size : Nat
  lexicon_terms_order : List String
  postings_bytes : List Nat
  postings_offsets : List (String × Nat × Nat)
  doc_id_map : List (String × Nat)
  rev_doc_id_map : List (Option String)

/-- Model of `comprimir_indice(index, block_size)` (integer-ID regime). -/
def comprimir_indice (index : List (String × List Nat)) (block_size : Nat) :
    CompressedIndex :=
  let norm := _normalize_docids_to_ints index
  let index_int := norm.1
  let terms_sorted := (index_int.map Prod.fst).toFinset.sort (· ≤ ·)
  let getP : String → List Nat := fun t =>
    ((index_int.find? (fun p => p.1 == t)).map Prod.snd).getD []
  let bp := buildPostings getP terms_sorted []
  { lexicon_bytes := front_code_blocks (terms_sorted.map String.toList) block_size
    lexicon_block_size := block_size
    lexicon_terms_order := terms_sorted
    postings_bytes := bp.1
    postings_offsets := bp.2
    doc_id_map := norm.2.1
    rev_doc_id_map := norm.2.2 }

/-- Model of `CompressedReader.postings(term)`: look up the term's
`(offset, length)` slice, decode the VarByte stream and undo the d-gaps.
An unknown term resolves to the empty list (`if not off: return []`). -/
def CompressedReader.postings (offsets : List (String × Nat × Nat))
    (blob : List Nat) (term : String) : List Nat :=
  match offsets.find? (fun p => p.1 == term) with
  | none => []
  | some (_, start, length) =>
    from_dgaps (vb_decode_stream ((blob.drop start).take length))

/-! ### Facts about the compressor -/

theorem sortedDedup_chain (l : List Nat) :
    List.Chain' (· ≤ ·) (sortedDedup l) :=
  (Finset.sort_sorted _ _).chain'

theorem normalize_fst (index : List (String × List Nat)) :
    (_normalize_docids_to_ints index).1
      = index.map (fun p => (p.1, sortedDedup p.2)) := by
  rw [_normalize_docids_to_ints]
  by_cases h : (index.map Prod.snd).flatten = []
  · rw [if_pos h]
    apply List.map_congr_left
    intro p hp
    have hnil : p.2 = [] :=
      List.flatten_eq_nil_iff.mp h p.2 (List.mem_map.mpr ⟨p, hp, rfl⟩)
    simp [hnil, sortedDedup]
  · rw [if_neg h]

theorem find?_assoc {α : Type} (l : List (String × α)) (t : String) (v : α)
    (hnodup : (l.map Prod.fst).Nodup) (hmem : (t, v) ∈ l) :
    l.find? (fun p => p.1 == t) = some (t, v) := by
  induction l with
  | nil => simp at hmem
  | cons q rest ih =>
    rcases List.mem_cons.mp hmem with heq | htail
    · subst heq
      rw [List.find?_cons_of_pos _ (by simp)]
    · have h0 : q.1 ∉ rest.map Prod.fst ∧ (rest.map Prod.fst).Nodup := by
        rw [List.map_cons] at hnodup
        exact List.nodup_cons.mp hnodup
      have hne : q.1 ≠ t := fun hcontra =>
        h0.1 (hcontra ▸ List.mem_map.mpr ⟨(t, v), htail, rfl⟩)
      rw [List.find?_cons_of_neg _ (by simp [hne])]
      exact ih h0.2 htail

theorem buildPostings_fst (getP : String → List Nat) :
    ∀ (ts : List String) (blob : List Nat),
      (buildPostings getP ts blob).1
        = blob ++ (ts.map (fun t => vb_encode_list (d_gaps (getP t)))).flatten := by
  intro ts
  induction ts with
  | nil => intro blob; simp [buildPostings]
  | cons t rest ih =>
    intro blob
    rw [buildPostings]
    simp only [List.map_cons, List.flatten_cons]
    rw [ih, List.append_assoc]

theorem buildPostings_find (getP : String → List Nat) :
    ∀ (ts : List String) (blob : List Nat) (t : String),
      ts.Nodup → t ∈ ts →
      ∃ s, (buildPostings getP ts blob).2.find? (fun p => p.1 == t)
            = some (t, s, (vb_encode_list (d_gaps (getP t))).length)
        ∧ ((buildPostings getP ts blob).1.drop s).take
              (vb_encode_list (d_gaps (getP t))).length
            = vb_encode_list (d_gaps (getP t)) := by
  intro ts
  induction ts with
  | nil => intro blob t _ hmem; simp at hmem
  | cons u rest ih =>
    intro blob t hnodup hmem
    rcases List.mem_cons.mp hmem with heq | htail
    · subst heq
      refine ⟨blob.length, ?_, ?_⟩
      · simp only [buildPostings]
        rw [List.find?_cons_of_pos _ (by simp)]
      · rw [buildPostings_fst]
        simp only [List.map_cons, List.flatten_cons]
        rw [List.drop_left, List.take_left]
    · have hne : u ≠ t := by
        intro hcontra
        exact (List.nodup_cons.mp hnodup).1 (hcontra ▸ htail)
      obtain ⟨s, hfind, hslice⟩ :=
        ih (blob ++ vb_encode_list (d_gaps (getP u))) t
          (List.nodup_cons.mp hnodup).2 htail
      refine ⟨s, ?_, ?_⟩
      · simp only [buildPostings]
        rw [List.find?_cons_of_neg _ (by simp [hne])]
        exact hfind
      · simp only [buildPostings]
        exact hslice

/-- Compress-then-read round-trip: for any index with distinct term keys,
reading the posting slice that `comprimir_indice` recorded for a term
(VarByte stream decode plus d-gap prefix sums, as
`CompressedReader.postings` does) yields the deduplicated, sorted list of
that term's document IDs. -/
theorem comprimir_then_postings (index : List (String × List Nat))
    (block_size : Nat) (term : String) (plist : List Nat)
    (hnodup : (index.map Prod.fst).Nodup) (hmem : (term, plist) ∈ index) :
    CompressedReader.postings (comprimir_indice index block_size).postings_offsets
        (comprimir_indice index block_size).postings_bytes term
      = sortedDedup plist := by
  have hfst := normalize_fst index
  have hkeys : (_normalize_docids_to_ints index).1.map Prod.fst
      = index.map Prod.fst := by
    rw [hfst, List.map_map]
    rfl
  have hmem2 : (term, sortedDedup plist) ∈ (_normalize_docids_to_ints index).1 := by
    rw [hfst]
    exact List.mem_map.mpr ⟨(term, plist), hmem, rfl⟩
  have hgp : (fun t =>
        (((_normalize_docids_to_ints index).1.find?
          (fun p => p.1 == t)).map Prod.snd).getD []) term
      = sortedDedup plist := by
    simp only []
    rw [find?_assoc _ term _ (by rw [hkeys]; exact hnodup) hmem2]
    rfl
  have hts_nodup :
      (((_normalize_docids_to_ints index).1.map Prod.fst).toFinset.sort
        (· ≤ ·)).Nodup := Finset.sort_nodup _ _
  have hts_mem : term
      ∈ ((_normalize_docids_to_ints index).1.map Prod.fst).toFinset.sort
        (· ≤ ·) := by
    rw [Finset.mem_sort, List.mem_toFinset, hkeys]
    exact List.mem_map.mpr ⟨(term, plist), hmem, rfl⟩
  obtain ⟨s, hfind, hslice⟩ :=
    buildPostings_find
      (fun t => (((_normalize_docids_to_ints index).1.find?
        (fun p => p.1 == t)).map Prod.snd).getD [])
      (((_normalize_docids_to_ints index).1.map Prod.fst).toFinset.sort (· ≤ ·))
      [] term hts_nodup hts_mem
  have hoff : (comprimir_indice index block_size).postings_offsets
      = (buildPostings
          (fun t => (((_normalize_docids_to_ints index).1.find?
            (fun p => p.1 == t)).map Prod.snd).getD [])
          (((_normalize_docids_to_ints index).1.map Prod.fst).toFinset.sort
            (· ≤ ·)) []).2 := rfl
  have hblob : (comprimir_indice index block_size).postings_bytes
      = (buildPostings
          (fun t => (((_normalize_docids_to_ints index).1.find?
            (fun p => p.1 == t)).map Prod.snd).getD [])
          (((_normalize_docids_to_ints index).1.map Prod.fst).toFinset.sort
            (· ≤ ·)) []).1 := rfl
  rw [CompressedReader.postings.eq_def, hoff, hblob]
  simp only [hfind, hslice]
  rw [vb_decode_stream_encode_list]
  have hgp2 : (((_normalize_docids_to_ints index).1.find?
        (fun p => p.1 == term)).map Prod.snd).getD []
      = sortedDedup plist := hgp
  simp only [hgp2]
  exact from_dgaps_d_gaps (sortedDedup_chain plist)

/-! ## String-ID normalization regime of `_normalize_docids_to_ints`

When some external document ID is not an integer, the source stringifies
every ID (`sorted(map(str, all_docids))`), assigns internal IDs from 1 in
lexicographic order (`enumerate(sorted_ids, start=1)`), and fills a
reverse table initialized to `"<NULL>"` of length `len(doc_id_map) + 1`.
External IDs are modelled directly as strings (`str(x) = x`). -/

/-- Model of the `else` (string-ID) branch of `_normalize_docids_to_ints`,
together with the empty-index early return. -/
def _normalize_docids_str (index : List (String × List String)) :
    List (String × List Nat) × List (String × Nat) × List String :=
  let all_docids := (index.map Prod.snd).flatten
  if all_docids = [] then
    (index.map (fun p => (p.1, [])), [], [])
  else
    let sorted_ids := all_docids.toFinset.sort (· ≤ ·)
    let doc_id_map := sorted_ids.enum.map (fun q => (q.2, q.1 + 1))
    let rev0 : List String := List.replicate (doc_id_map.length + 1) "<NULL>"
    let rev := doc_id_map.foldl (fun r p => r.set p.2 p.1) rev0
    let to_int : String → Nat := fun x =>
      ((doc_id_map.find? (fun q => q.1 == x)).map Prod.snd).getD 0
    (index.map (fun p => (p.1, (p.2.map to_int).toFinset.sort (· ≤ ·))),
      doc_id_map, rev)

/-- Writing values `l` at positions `k+1, k+2, ...` of a table whose
first `k+1` slots are `r1` and whose tail is `"<NULL>"` padding yields
`r1 ++ l`. -/
theorem foldl_set_enumFrom (l : List String) :
    ∀ (k : Nat) (r1 : List String), r1.length = k + 1 →
      ((l.enumFrom k).map (fun q => (q.2, q.1 + 1))).foldl
          (fun r p => r.set p.2 p.1)
          (r1 ++ List.replicate l.length "<NULL>")
        = r1 ++ l := by
  induction l with
  | nil => intro k r1 _; simp
  | cons x xs ih =>
    intro k r1 hr1
    rw [List.enumFrom_cons, List.map_cons, List.foldl_cons]
    have hset : (r1 ++ List.replicate (x :: xs).length "<NULL>").set (k + 1) x
        = (r1 ++ [x]) ++ List.replicate xs.length "<NULL>" := by
      rw [List.set_append_right _ _ (by omega)]
      rw [hr1]
      simp [List.replicate_succ]
    rw [hset]
    rw [ih (k + 1) (r1 ++ [x]) (by simp [hr1])]
    simp

/-- In the string regime (nonempty ID set), the reverse table is exactly
the `"<NULL>"` sentinel followed by the lexicographically sorted distinct
external IDs. -/
theorem normalize_str_rev (index : List (String × List String))
    (hne : (index.map Prod.snd).flatten ≠ []) :
    (_normalize_docids_str index).2.2
      = "<NULL>" :: ((index.map Prod.snd).flatten.toFinset.sort (· ≤ ·)) := by
  rw [_normalize_docids_str]
  rw [if_neg hne]
  simp only []
  have hlen : ((((index.map Prod.snd).flatten.toFinset.sort (· ≤ ·)).enum.map
      (fun q => (q.2, q.1 + 1))).length)
      = ((index.map Prod.snd).flatten.toFinset.sort (· ≤ ·)).length := by
    simp [List.enum]
  rw [hlen]
  have := foldl_set_enumFrom ((index.map Prod.snd).flatten.toFinset.sort (· ≤ ·))
    0 ["<NULL>"] rfl
  rw [List.enum]
  rw [show List.replicate
        (((index.map Prod.snd).flatten.toFinset.sort (· ≤ ·)).length + 1) "<NULL>"
      = ["<NULL>"] ++ List.replicate
        (((index.map Prod.snd).flatten.toFinset.sort (· ≤ ·)).length) "<NULL>"
    from by simp [List.replicate_succ]]
  rw [this]
  rfl

/-! ## Boolean query engine (`buscar.py`)

`_tokenizar_booleana` scans the query with the regex
`\(|\)|\bAND\b|\bOR\b|\bNOT\b|\w+` (case-insensitive): for input made of
parentheses, word-character runs and other (separator) characters this is
exactly a character scan that emits `(`/`)` tokens, uppercases maximal
word runs that spell AND/OR/NOT, and keeps other runs verbatim as term
tokens.  Word characters are modelled as ASCII `[A-Za-z0-9_]` (the claims
only exercise ASCII queries). -/

def isWordChar (c : Char) : Bool :=
  c.isAlphanum || c == '_'

/-- Character-scan model of the token loop of `_tokenizar_booleana`. -/
def tokenizarAux : List Char → List String
  | [] => []
  | c :: cs =>
    if c = '(' then "(" :: tokenizarAux cs
    else if c = ')' then ")" :: tokenizarAux cs
    else if isWordChar c then
      let run := c :: cs.takeWhile isWordChar
      let tok := String.mk run
      let up := String.mk (run.map Char.toUpper)
      (if up = "AND" ∨ up = "OR" ∨ up = "NOT" then up else tok)
        :: tokenizarAux (cs.dropWhile isWordChar)
    else tokenizarAux cs
termination_by l => l.length
decreasing_by
  all_goals simp only [List.length_cons]
  · omega
  · omega
  · have := (List.dropWhile_sublist (l := cs) (p := isWordChar)).length_le
    omega
  · omega

/-- Model of `_tokenizar_booleana(consulta)`. -/
def _tokenizar_booleana (consulta : String) : List String :=
  tokenizarAux consulta.data

/-- An element of the RPN output list of `_a_rpn`: either the tuple
`("TERM", t)` or a plain string token (an operator). -/
inductive RToken where
  | TERM (t : String)
  | tok (s : String)
deriving DecidableEq

/-- Model of `es_operador(t)` (`_a_rpn`). -/
def es_operador (t : String) : Bool :=
  t == "AND" || t == "OR" || t == "NOT"

/-- The `precedencia` table; `0` is never consulted (only operators are). -/
def precedencia (t : String) : Nat :=
  if t = "OR" then 1 else if t = "AND" then 2 else if t = "NOT" then 3 else 0

/-- Test `asociatividad[t] == "left"`. -/
def asocIzq (t : String) : Bool :=
  t == "AND" || t == "OR"

/-- The operator-popping loop of the `es_operador` branch of `_a_rpn`:
pop while the stack top is an operator that outranks `t`. -/
def popOps (t : String) : List String → List RToken → List String × List RToken
  | [], salida => ([], salida)
  | top :: rest, salida =>
    if es_operador top
        ∧ ((asocIzq t ∧ precedencia t ≤ precedencia top)
           ∨ (¬asocIzq t ∧ precedencia t < precedencia top)) then
      popOps t rest (salida ++ [RToken.tok top])
    else (top :: rest, salida)

/-- The `)` branch of `_a_rpn`: pop to the output until the matching `(`
(discarded); `none` models `raise ValueError("Paréntesis desbalanceados")`
when the stack empties first. -/
def popUntilParen : List String → List RToken → Option (List String × List RToken)
  | [], _ => none
  | top :: rest, salida =>
    if top = "(" then some (rest, salida)
    else popUntilParen rest (salida ++ [RToken.tok top])

/-- The final drain `while ops:` of `_a_rpn`; a leftover parenthesis is
`raise ValueError("Paréntesis desbalanceados")`. -/
def drainOps : List String → List RToken → Option (List RToken)
  | [], salida => some salida
  | top :: rest, salida =>
    if top = "(" ∨ top = ")" then none
    else drainOps rest (salida ++ [RToken.tok top])

/-- The token loop of `_a_rpn` with explicit output and operator stack. -/
def aRpnAux : List String → List String → List RToken → Except String (List RToken)
  | [], ops, salida =>
    match drainOps ops salida with
    | none => .error "Paréntesis desbalanceados"
    | some out => .ok out
  | t :: ts, ops, salida =>
    if t = "(" then aRpnAux ts ("(" :: ops) salida
    else if t = ")" then
      match popUntilParen ops salida with
      | none => .error "Paréntesis desbalanceados"
      | some (ops2, salida2) => aRpnAux ts ops2 salida2
    else if es_operador t then
      let r := popOps t ops salida
      aRpnAux ts (t :: r.1) r.2
    else aRpnAux ts ops (salida ++ [RToken.TERM t])

/-- Model of `_a_rpn(tokens)` (shunting-yard). -/
def _a_rpn (tokens : List String) : Except String (List RToken) :=
  aRpnAux tokens [] []

/-- The token loop of `evaluar_rpn` with explicit operand stack (`pila`,
top at the head; Python appends/pops at the end of its list).  The
operands are sets of internal document IDs. -/
def evaluarAux (buscar_fn : String → List Nat) (universo : Finset Nat) :
    List RToken → List (Finset Nat) → Except String (Finset Nat)
  | [], pila =>
    match pila with
    | [a] => .ok a
    | _ => .error "Expresión inválida"
  | t :: ts, pila =>
    match t with
    | .TERM term => evaluarAux buscar_fn universo ts ((buscar_fn term).toFinset :: pila)
    | .tok s =>
      if s = "NOT" then
        match pila with
        | [] => .error "Operador NOT sin operando"
        | a :: rest => evaluarAux buscar_fn universo ts ((universo \ a) :: rest)
      else if s = "AND" ∨ s = "OR" then
        match pila with
        | b :: a :: rest =>
          evaluarAux buscar_fn universo ts
            ((if s = "AND" then a ∩ b else a ∪ b) :: rest)
        | _ => .error ("Operador " ++ s ++ " con operandos insuficientes")
      else .error ("Token desconocido en RPN: " ++ s)

/-- Model of `evaluar_rpn(rpn, buscar_fn, universo)`. -/
def evaluar_rpn (rpn : List RToken) (buscar_fn : String → List Nat)
    (universo : Finset Nat) : Except String (Finset Nat) :=
  evaluarAux buscar_fn universo rpn []

/-! ### Parenthesis balance (specification-side predicate for C8) -/

/-- Balance check over the parenthesis projection of a token sequence:
a `)` must always have a pending `(`, and no `(` may remain open at the
end.  This formalizes the claim's notion of balanced parentheses. -/
def parensBalanced : List String → Nat → Bool
  | [], k => k == 0
  | t :: ts, k =>
    if t = "(" then parensBalanced ts (k + 1)
    else if t = ")" then decide (0 < k) && parensBalanced ts (k - 1)
    else parensBalanced ts k

theorem drainOps_of_mem_paren :
    ∀ (ops : List String) (salida : List RToken), "(" ∈ ops →
      drainOps ops salida = none := by
  intro ops
  induction ops with
  | nil => intro salida h; simp at h
  | cons top rest ih =>
    intro salida h
    rw [drainOps]
    by_cases htop : top = "(" ∨ top = ")"
    · rw [if_pos htop]
    · rw [if_neg htop]
      rcases List.mem_cons.mp h with heq | hmem
      · exact absurd (Or.inl heq.symm) htop
      · exact ih _ hmem

theorem popUntilParen_of_not_mem :
    ∀ (ops : List String) (salida : List RToken), "(" ∉ ops →
      popUntilParen ops salida = none := by
  intro ops
  induction ops with
  | nil => intro salida _; rfl
  | cons top rest ih =>
    intro salida h
    rw [popUntilParen]
    have htop : top ≠ "(" := fun hc => h (hc ▸ List.mem_cons_self _ _)
    rw [if_neg htop]
    exact ih _ (fun hc => h (List.mem_cons_of_mem _ hc))

theorem popUntilParen_of_mem :
    ∀ (ops : List String) (salida : List RToken), "(" ∈ ops →
      ∃ ops2 salida2, popUntilParen ops salida = some (ops2, salida2)
        ∧ ops2.count "(" + 1 = ops.count "(" := by
  intro ops
  induction ops with
  | nil => intro salida h; simp at h
  | cons top rest ih =>
    intro salida h
    rw [popUntilParen]
    by_cases htop : top = "("
    · subst htop
      exact ⟨rest, salida, by rw [if_pos rfl], by simp⟩
    · rw [if_neg htop]
      rcases List.mem_cons.mp h with heq | hmem
      · exact absurd heq.symm htop
      · obtain ⟨ops2, salida2, hres, hcount⟩ := ih _ hmem
        refine ⟨ops2, salida2, hres, ?_⟩
        rw [List.count_cons_of_ne (by simp [Ne.symm htop])] at *
        exact hcount

theorem popOps_count (t : String) :
    ∀ (ops : List String) (salida : List RToken),
      (popOps t ops salida).1.count "(" = ops.count "(" := by
  intro ops
  induction ops with
  | nil => intro salida; rfl
  | cons top rest ih =>
    intro salida
    rw [popOps]
    by_cases hc : es_operador top
        ∧ ((asocIzq t ∧ precedencia t ≤ precedencia top)
           ∨ (¬asocIzq t ∧ precedencia t < precedencia top))
    · rw [if_pos hc]
      have htop : top ≠ "(" := by
        intro hcontra
        subst hcontra
        simp [es_operador] at hc
      rw [ih, List.count_cons_of_ne (by simp [Ne.symm htop])]
    · rw [if_neg hc]

/-- Running the shunting-yard loop from any state whose pending-paren
count makes the remaining tokens unbalanced ends in the
`Paréntesis desbalanceados` error. -/
theorem aRpnAux_unbalanced :
    ∀ (tokens : List String) (ops : List String) (salida : List RToken),
      parensBalanced tokens (ops.count "(") = false →
      aRpnAux tokens ops salida = .error "Paréntesis desbalanceados" := by
  intro tokens
  induction tokens with
  | nil =>
    intro ops salida h
    rw [parensBalanced] at h
    have hmem : "(" ∈ ops := by
      rw [← List.count_pos_iff]
      simp at h
      omega
    rw [aRpnAux, drainOps_of_mem_paren ops salida hmem]
  | cons t ts ih =>
    intro ops salida h
    rw [parensBalanced] at h
    rw [aRpnAux]
    by_cases h1 : t = "("
    · subst h1
      rw [if_pos rfl] at h ⊢
      apply ih
      rw [List.count_cons_self]
      exact h
    · rw [if_neg h1] at h ⊢
      by_cases h2 : t = ")"
      · rw [if_pos h2] at h ⊢
        by_cases hk : 0 < ops.count "("
        · obtain ⟨ops2, salida2, hres, hcount⟩ :=
            popUntilParen_of_mem ops salida (List.count_pos_iff.mp hk)
          rw [hres]
          apply ih
          rw [show ops2.count "(" = ops.count "(" - 1 from by omega]
          simp [hk] at h
          exact h
        · rw [popUntilParen_of_not_mem ops salida
            (fun hc => hk (List.count_pos_iff.mpr hc))]
      · rw [if_neg h2] at h ⊢
        by_cases h3 : es_operador t
        · rw [if_pos h3]
          apply ih
          rw [List.count_cons_of_ne (by simp [Ne.symm h1]), popOps_count]
          exact h
        · rw [if_neg h3]
          exact ih _ _ h

/-- A token sequence with unbalanced parentheses makes `_a_rpn` raise the
syntax error (no crash, no partial result). -/
theorem a_rpn_unbalanced (tokens : List String)
    (h : parensBalanced tokens 0 = false) :
    _a_rpn tokens = .error "Paréntesis desbalanceados" :=
  aRpnAux_unbalanced tokens [] [] h

/-! ## Auxiliary material for concrete evaluations -/

instance {ε α : Type} [DecidableEq ε] [DecidableEq α] :
    DecidableEq (Except ε α) := fun a b =>
  match a, b with
  | .error e, .error f =>
    if h : e = f then .isTrue (by rw [h]) else .isFalse (by simp [h])
  | .error _, .ok _ => .isFalse (fun hc => Except.noConfusion hc)
  | .ok _, .error _ => .isFalse (fun hc => Except.noConfusion hc)
  | .ok x, .ok y =>
    if h : x = y then .isTrue (by rw [h]) else .isFalse (by simp [h])

/-- Evaluation rule for `sortedDedup` at concrete inputs (the sort itself
is not kernel-reducible, so concrete values are certified through
sortedness and element agreement instead). -/
theorem sortedDedup_eval (l out : List Nat) (hnd : out.Nodup)
    (hsort : out.Sorted (· ≤ ·)) (hf : l.toFinset = out.toFinset) :
    sortedDedup l = out := by
  rw [sortedDedup, hf]
  exact (List.toFinset_sort _ hnd).mpr hsort

/-- The concrete backend of the boolean-semantics test: postings
`gato → {1,2}`, `perro → {2,3}`, `raton → {3}`. -/
def demoBuscar (t : String) : List Nat :=
  if t = "gato" then [1, 2]
  else if t = "perro" then [2, 3]
  else if t = "raton" then [3]
  else []

/-- Universe `{1,2,3}` of the boolean-semantics test. -/
def demoUniverso : Finset Nat := {1, 2, 3}


/-! ## The claims -/

/-- C1: For every raw term-to-document-IDs mapping (distinct term keys,
integer-ID regime) and every term in it, compressing with
`comprimir_indice` and then decoding that term's recorded byte slice of
the posting blob (VarByte stream decode followed by prefix-summing the
d-gaps, as `CompressedReader.postings` does) yields exactly the
deduplicated, ascending-sorted list of that term's internal document
IDs. -/
theorem claim_C1 (index : List (String × List Nat)) (block_size : Nat)
    (term : String) (plist : List Nat)
    (hnodup : (index.map Prod.fst).Nodup) (hmem : (term, plist) ∈ index) :
    CompressedReader.postings
        (comprimir_indice index block_size).postings_offsets
        (comprimir_indice index block_size).postings_bytes term
      = sortedDedup plist :=
  comprimir_then_postings index block_size term plist hnodup hmem

/-- C1 witness: a stored document set `{3, 7, 7, 40}` (duplicate input)
decodes to `[3, 7, 40]`. -/
theorem claim_C1_witness :
    (([("t", [3, 7, 7, 40])].map Prod.fst).Nodup
      ∧ ("t", [3, 7, 7, 40]) ∈ [("t", [3, 7, 7, 40])])
    ∧ CompressedReader.postings
        (comprimir_indice [("t", [3, 7, 7, 40])] 8).postings_offsets
        (comprimir_indice [("t", [3, 7, 7, 40])] 8).postings_bytes "t"
      = sortedDedup [3, 7, 7, 40]
    ∧ sortedDedup [3, 7, 7, 40] = [3, 7, 40] :=
  ⟨⟨by decide, by decide⟩,
    claim_C1 [("t", [3, 7, 7, 40])] 8 "t" [3, 7, 7, 40] (by decide) (by decide),
    sortedDedup_eval _ _ (by decide) (by decide) (by decide)⟩

/-- C2: VarByte coding round-trips: decoding one number from
`vb_encode_number n` at position 0 returns `(n, length of the encoding)`,
and stream-decoding the concatenation of the encodings of any sequence
returns the sequence. -/
theorem claim_C2 :
    (∀ n : Nat, vb_decode_number_from (vb_encode_number n) 0
        = some (n, (vb_encode_number n).length))
    ∧ (∀ seq : List Nat, vb_decode_stream (vb_encode_list seq) = seq) :=
  ⟨fun n => by
      have h := vb_decode_number_from_encode n []
      rwa [List.append_nil] at h,
    vb_decode_stream_encode_list⟩

/-- C3 counterexample: the byte stream `[0x01]` ends mid-number (its
single byte has the high bit clear), yet `_vb_decode_stream` returns
normally with the empty list — the function's body contains no raise at
all (its residual check is `if n != 0: pass`), so the claimed decode
error never happens. -/
theorem claim_C3_counterexample :
    (1 : Nat) / 128 % 2 ≠ 1 ∧ vb_decode_stream [1] = [] := by
  constructor
  · decide
  · rfl

/-- C3 (amended): for every byte stream made of well-formed VarByte
numbers followed by a nonempty unterminated residual (all residual bytes
have the high bit clear), `_vb_decode_stream` silently discards the
residual and returns the previously decoded numbers; it never raises. -/
theorem claim_C3_amended (nums residual : List Nat) (hne : residual ≠ [])
    (hclear : ∀ b ∈ residual, b / 128 % 2 ≠ 1) :
    vb_decode_stream (vb_encode_list nums ++ residual) = nums :=
  vb_decode_stream_residual nums residual hclear

/-- C3 witness: `[5]` encoded and then the stray clear-bit byte `1`
appended decodes back to `[5]`, silently. -/
theorem claim_C3_witness :
    (([1] : List Nat) ≠ [] ∧ (∀ b ∈ ([1] : List Nat), b / 128 % 2 ≠ 1))
    ∧ vb_decode_stream (vb_encode_list [5] ++ [1]) = [5] :=
  ⟨⟨by decide, by decide⟩, claim_C3_amended [5] [1] (by decide) (by decide)⟩

/-- C4: Front-coding round-trips: for every lexicographically sorted
sequence of distinct non-empty strings (code-point lists, including
non-ASCII ones) and every block size ≥ 1, decoding the blob produced by
`front_code_blocks` with `_decode_lexicon_fc` returns exactly the
original sequence in order. -/
theorem claim_C4 (terms : List Str) (block_size : Nat)
    (hbs : 1 ≤ block_size)
    (hsorted : List.Chain' (fun a b => List.Lex (· < ·) a b) terms)
    (hnonempty : ∀ t ∈ terms, t ≠ []) :
    _decode_lexicon_fc (front_code_blocks terms block_size) block_size
      = some terms :=
  decodeLexAux_front_code block_size hbs terms.length terms le_rfl

/-- C4 witness: a sorted pair of non-ASCII terms (`cañ`, `caña`) with
block size 2 round-trips. -/
theorem claim_C4_witness :
    (1 ≤ 2
      ∧ List.Chain' (fun a b => List.Lex (· < ·) a b)
          [['c', 'a', 'ñ'], ['c', 'a', 'ñ', 'a']]
      ∧ (∀ t ∈ [['c', 'a', 'ñ'], ['c', 'a', 'ñ', 'a']], t ≠ []))
    ∧ _decode_lexicon_fc
        (front_code_blocks [['c', 'a', 'ñ'], ['c', 'a', 'ñ', 'a']] 2) 2
      = some [['c', 'a', 'ñ'], ['c', 'a', 'ñ', 'a']] :=
  ⟨⟨by decide,
    by exact .cons (.cons (.cons (.cons .nil))) .nil,
    by decide⟩,
    claim_C4 [['c', 'a', 'ñ'], ['c', 'a', 'ñ', 'a']] 2
      (by decide)
      (by exact .cons (.cons (.cons (.cons .nil))) .nil)
      (by decide)⟩

/-- C5: Tokenizing, parsing to postfix, and evaluating
`(gato OR perro) AND NOT raton` against the backend with postings
`gato → {1,2}`, `perro → {2,3}`, `raton → {3}` and universe `{1,2,3}`
yields exactly `{1,2}` (OR is union, AND is intersection, NOT is
universe-complement, NOT binding tighter than AND, AND tighter than
OR). -/
theorem claim_C5 :
    _tokenizar_booleana "(gato OR perro) AND NOT raton"
        = ["(", "gato", "OR", "perro", ")", "AND", "NOT", "raton"]
    ∧ _a_rpn ["(", "gato", "OR", "perro", ")", "AND", "NOT", "raton"]
        = .ok [.TERM "gato", .TERM "perro", .tok "OR",
               .TERM "raton", .tok "NOT", .tok "AND"]
    ∧ evaluar_rpn
        [.TERM "gato", .TERM "perro", .tok "OR",
         .TERM "raton", .tok "NOT", .tok "AND"] demoBuscar demoUniverso
      = .ok {1, 2} := by
  refine ⟨?_, ?_, ?_⟩
  · simp [_tokenizar_booleana, tokenizarAux, isWordChar]
  · rfl
  · decide

/-- C6: In the string-ID regime (external IDs modelled as strings, ID set
nonempty), `_normalize_docids_to_ints` sorts the stringified external IDs
lexicographically and assigns internal IDs consecutively from 1: slot 0
of the reverse table is the `"<NULL>"` sentinel never assigned to any
real document (every mapped internal ID is ≥ 1), and entry `i + 1` of
the reverse table is the `i`-th external ID in lexicographic order. -/
theorem claim_C6 (index : List (String × List String))
    (hne : (index.map Prod.snd).flatten ≠ []) :
    ((_normalize_docids_str index).2.2)[0]? = some "<NULL>"
    ∧ (∀ p ∈ (_normalize_docids_str index).2.1, 1 ≤ p.2)
    ∧ (∀ i : Nat, ((_normalize_docids_str index).2.2)[i + 1]?
        = ((index.map Prod.snd).flatten.toFinset.sort (· ≤ ·))[i]?)
    ∧ (∀ i : Nat, ((_normalize_docids_str index).2.1)[i]?
        = (((index.map Prod.snd).flatten.toFinset.sort (· ≤ ·))[i]?).map
            (fun d => (d, i + 1))) := by
  have hrev := normalize_str_rev index hne
  have hmap : (_normalize_docids_str index).2.1
      = ((index.map Prod.snd).flatten.toFinset.sort (· ≤ ·)).enum.map
          (fun q => (q.2, q.1 + 1)) := by
    rw [_normalize_docids_str, if_neg hne]
  refine ⟨?_, ?_, ?_, ?_⟩
  · rw [hrev]; simp
  · intro p hp
    rw [hmap] at hp
    obtain ⟨q, _, hq⟩ := List.mem_map.mp hp
    rw [← hq]
    omega
  · intro i
    rw [hrev]
    simp
  · intro i
    rw [hmap]
    rw [List.getElem?_map, List.enum, List.getElem?_enumFrom]
    cases ((index.map Prod.snd).flatten.toFinset.sort (· ≤ ·))[i]? with
    | none => rfl
    | some d => simp

/-- C6 witness: the mapping `t → ["b", "a"]` gets the reverse table
`["<NULL>", "a", "b"]` and the map `[("a", 1), ("b", 2)]`. -/
theorem claim_C6_witness :
    (([("t", ["b", "a"])].map Prod.snd).flatten ≠ [])
    ∧ (((_normalize_docids_str [("t", ["b", "a"])]).2.2)[0]? = some "<NULL>"
      ∧ (∀ p ∈ (_normalize_docids_str [("t", ["b", "a"])]).2.1, 1 ≤ p.2)
      ∧ (∀ i : Nat, ((_normalize_docids_str [("t", ["b", "a"])]).2.2)[i + 1]?
          = (([("t", ["b", "a"])].map Prod.snd).flatten.toFinset.sort
              (· ≤ ·))[i]?)
      ∧ (∀ i : Nat, ((_normalize_docids_str [("t", ["b", "a"])]).2.1)[i]?
          = ((([("t", ["b", "a"])].map Prod.snd).flatten.toFinset.sort
              (· ≤ ·))[i]?).map (fun d => (d, i + 1)))) :=
  ⟨by decide, claim_C6 [("t", ["b", "a"])] (by decide)⟩

/-- C7: `evaluar_rpn` (via its token loop `evaluarAux`, quantified over
every reachable operand stack) errors whenever NOT is applied with an
empty stack, or AND/OR with fewer than two operands; after all tokens it
errors with the invalid-expression message unless exactly one operand
remains, in which case it returns that operand. -/
theorem claim_C7 (buscar_fn : String → List Nat) (universo : Finset Nat)
    (ts : List RToken) (pila : List (Finset Nat)) :
    (evaluarAux buscar_fn universo (.tok "NOT" :: ts) []
        = .error "Operador NOT sin operando")
    ∧ (pila.length < 2 →
        evaluarAux buscar_fn universo (.tok "AND" :: ts) pila
          = .error "Operador AND con operandos insuficientes")
    ∧ (pila.length < 2 →
        evaluarAux buscar_fn universo (.tok "OR" :: ts) pila
          = .error "Operador OR con operandos insuficientes")
    ∧ (∀ a : Finset Nat, evaluarAux buscar_fn universo [] [a] = .ok a)
    ∧ (pila.length ≠ 1 →
        evaluarAux buscar_fn universo [] pila = .error "Expresión inválida")
    ∧ evaluar_rpn (.tok "NOT" :: ts) buscar_fn universo
        = .error "Operador NOT sin operando" := by
  refine ⟨rfl, ?_, ?_, fun a => rfl, ?_, rfl⟩
  · intro h
    match pila with
    | [] => rfl
    | [a] => rfl
    | a :: b :: r => exact absurd h (by simp)
  · intro h
    match pila with
    | [] => rfl
    | [a] => rfl
    | a :: b :: r => exact absurd h (by simp)
  · intro h
    match pila with
    | [] => rfl
    | [a] => exact absurd (rfl : [a].length = 1) h
    | a :: b :: r => rfl

/-- C7 witness: the error and success cases at concrete inputs. -/
theorem claim_C7_witness :
    (evaluarAux (fun _ => []) ∅ [.tok "NOT"] []
        = .error "Operador NOT sin operando")
    ∧ (evaluarAux (fun _ => []) ∅ [.tok "AND"] []
        = .error "Operador AND con operandos insuficientes")
    ∧ (evaluarAux (fun _ => []) ∅ [.tok "OR"] []
        = .error "Operador OR con operandos insuficientes")
    ∧ (evaluarAux (fun _ => []) ∅ [] [{3}] = .ok {3})
    ∧ (evaluarAux (fun _ => []) ∅ [] [] = .error "Expresión inválida")
    ∧ (evaluar_rpn [.tok "NOT"] (fun _ => []) ∅
        = .error "Operador NOT sin operando") :=
  ⟨(claim_C7 (fun _ => []) ∅ [] []).1,
    (claim_C7 (fun _ => []) ∅ [] []).2.1 (by decide),
    (claim_C7 (fun _ => []) ∅ [] []).2.2.1 (by decide),
    (claim_C7 (fun _ => []) ∅ [] []).2.2.2.1 {3},
    (claim_C7 (fun _ => []) ∅ [] []).2.2.2.2.1 (by decide),
    (claim_C7 (fun _ => []) ∅ [] []).2.2.2.2.2⟩

/-- C8: for every token sequence with unbalanced parentheses, `_a_rpn`
raises the syntax error `Paréntesis desbalanceados` (no crash, no partial
result). -/
theorem claim_C8 (tokens : List String)
    (h : parensBalanced tokens 0 = false) :
    _a_rpn tokens = .error "Paréntesis desbalanceados" :=
  a_rpn_unbalanced tokens h

/-- C8 witness: the claim's example `"(gato AND perro"`. -/
theorem claim_C8_witness :
    parensBalanced (_tokenizar_booleana "(gato AND perro") 0 = false
    ∧ _a_rpn (_tokenizar_booleana "(gato AND perro")
        = .error "Paréntesis desbalanceados" := by
  have htok : _tokenizar_booleana "(gato AND perro"
      = ["(", "gato", "AND", "perro"] := by
    simp [_tokenizar_booleana, tokenizarAux, isWordChar]
  refine ⟨by rw [htok]; decide, claim_C8 _ (by rw [htok]; decide)⟩

/-- C9: for every term that is not a key of the offsets table,
`CompressedReader.postings` returns the empty list; the function is
total, so no error can be raised. -/
theorem claim_C9 (offsets : List (String × Nat × Nat)) (blob : List Nat)
    (term : String) (h : ∀ p ∈ offsets, p.1 ≠ term) :
    CompressedReader.postings offsets blob term = [] := by
  rw [CompressedReader.postings.eq_def]
  rw [List.find?_eq_none.mpr (fun p hp => by simp [h p hp])]

/-- C9 witness: `doesnotexist` is absent from a one-entry offsets
table. -/
theorem claim_C9_witness :
    (∀ p ∈ [("a", ((0 : Nat), (1 : Nat)))], p.1 ≠ "doesnotexist")
    ∧ CompressedReader.postings [("a", (0, 1))] [133] "doesnotexist" = [] :=
  ⟨by decide, claim_C9 [("a", (0, 1))] [133] "doesnotexist" (by decide)⟩

/-- C10: decoding a front-coded lexicon blob does not depend on the
block-size argument (`_decode_lexicon_fc` ignores it — each block carries
its own follower count, so the format is self-delimiting): decoding any
blob with any two block sizes gives identical results. -/
theorem claim_C10 (blob : List Nat) (b1 b2 : Nat) :
    _decode_lexicon_fc blob b1 = _decode_lexicon_fc blob b2 := rfl
